import Mathlib

/-!
Verification of the page-range specification parser of the PDF split tool
(`parseRanges` in `src/components/PDFSplitter.tsx`).

The source is JavaScript/TypeScript; the embedding below models the string
operations it uses (`String.prototype.trim`, `String.prototype.split`,
`parseInt` with no radix argument, including its sign and `0x` hexadecimal
prefix handling) over `List Char`, and the parser itself as a function
returning `Except RangeError (List (Int × Int))`, where each distinct
`throw` site of the source becomes a structured error value carrying the
error kind and the text interpolated into the thrown message.
-/

namespace PdfSplit

/-- Whitespace recognised by JavaScript `trim` (code points of the ECMAScript
WhiteSpace and LineTerminator productions). -/
def isWS (c : Char) : Bool :=
  c.toNat = 9 || c.toNat = 10 || c.toNat = 11 || c.toNat = 12 || c.toNat = 13 ||
  c.toNat = 32 || c.toNat = 160 || c.toNat = 5760 ||
  (8192 ≤ c.toNat && c.toNat ≤ 8202) ||
  c.toNat = 8232 || c.toNat = 8233 || c.toNat = 8239 || c.toNat = 8287 ||
  c.toNat = 12288 || c.toNat = 65279

/-- JavaScript `s.trim()`: drop whitespace from both ends. -/
def trimL (l : List Char) : List Char :=
  ((l.dropWhile isWS).reverse.dropWhile isWS).reverse

/-- JavaScript `s.split(sep)` for a one-character separator: splitting the
empty string yields `[""]`, `n` separators yield `n + 1` (possibly empty)
parts. -/
def splitOnC (sep : Char) : List Char → List (List Char)
  | [] => [[]]
  | c :: r =>
    if c = sep then [] :: splitOnC sep r
    else
      match splitOnC sep r with
      | t :: ts => (c :: t) :: ts
      | [] => [[c]]

/-- Decimal digit value of a character, `none` for non-digits. -/
def decVal (c : Char) : Option Nat :=
  if 48 ≤ c.toNat ∧ c.toNat ≤ 57 then some (c.toNat - 48) else none

/-- Hexadecimal digit value of a character, `none` for non-hex-digits. -/
def hexVal (c : Char) : Option Nat :=
  if 48 ≤ c.toNat ∧ c.toNat ≤ 57 then some (c.toNat - 48)
  else if 97 ≤ c.toNat ∧ c.toNat ≤ 102 then some (c.toNat - 87)
  else if 65 ≤ c.toNat ∧ c.toNat ≤ 70 then some (c.toNat - 55)
  else none

/-- Accumulate the value of the longest digit prefix of `l` (digits read by
`f`, radix `b`) onto `acc`, stopping at the first non-digit. -/
def digitsVal (f : Char → Option Nat) (b acc : Nat) : List Char → Nat
  | [] => acc
  | c :: r =>
    match f c with
    | some d => digitsVal f b (acc * b + d) r
    | none => acc

/-- Value of the longest digit prefix of `l`; `none` when `l` does not start
with a digit (ECMAScript `parseInt` step: empty digit sequence gives NaN). -/
def parseDigits (f : Char → Option Nat) (b : Nat) (l : List Char) : Option Nat :=
  match l with
  | [] => none
  | c :: _ =>
    match f c with
    | some _ => some (digitsVal f b 0 l)
    | none => none

/-- ECMAScript `parseInt` after sign processing: a leading `0x`/`0X` selects
radix 16, otherwise radix 10. -/
def parseIntBody (t : List Char) : Option Nat :=
  match t with
  | c0 :: c1 :: r =>
    if c0 = '0' ∧ (c1 = 'x' ∨ c1 = 'X') then parseDigits hexVal 16 r
    else parseDigits decVal 10 t
  | _ => parseDigits decVal 10 t

/-- ECMAScript `parseInt(s)` with no radix argument: skip leading whitespace,
read an optional sign, detect a hexadecimal prefix, then take the longest
digit run; `none` models NaN. -/
def parseIntJS (l : List Char) : Option Int :=
  match l.dropWhile isWS with
  | c :: r =>
    if c = '-' then (parseIntBody r).map (fun n => -(Int.ofNat n))
    else if c = '+' then (parseIntBody r).map Int.ofNat
    else (parseIntBody (c :: r)).map Int.ofNat
  | [] => none

/-- The error kinds of the parser, one per distinct user-visible failure of
`parseRanges` (each `throw` site of the source mapped to its taxonomy kind). -/
inductive ErrKind where
  | emptyInput
  | malformedToken
  | nonPositivePage
  | pageOutOfBounds
  | invertedRange
deriving DecidableEq, Repr

/-- A structured parse failure: the violated rule's kind together with the
text the source interpolates into the thrown message (the trimmed token at
every site except the single-page out-of-bounds message, which interpolates
the parsed page number). -/
structure RangeError where
  kind : ErrKind
  payload : List Char
deriving DecidableEq, Repr

/-- Fuel-driven worker for `natDigitsRev`; with fuel at least `n` it emits
the little-endian decimal digits of `n`. -/
def natDigitsRevGo : Nat → Nat → List Char
  | 0, _ => []
  | fuel + 1, n =>
    if n = 0 then [] else Nat.digitChar (n % 10) :: natDigitsRevGo fuel (n / 10)

/-- Little-endian decimal digits of a natural number (empty for 0). -/
def natDigitsRev (n : Nat) : List Char :=
  natDigitsRevGo n n

/-- Decimal string of a natural number, as JavaScript `String(n)` renders it. -/
def natDecimal (n : Nat) : List Char :=
  if n = 0 then ['0'] else (natDigitsRev n).reverse

/-- Decimal string of an integer, as JavaScript number-to-string coercion
renders integral values. -/
def intDecimal (i : Int) : List Char :=
  if i < 0 then '-' :: natDecimal (-i).toNat else natDecimal i.toNat

/-- Validation of one already-trimmed token, translated from the body of the
`for` loop of `parseRanges`: a token containing `-` is treated as a range
(only the first two `-`-separated parts are inspected, mirroring the
destructuring `const [start, end] = part.split('-')`), any other token as a
single page; each check mirrors one `if`/`throw` of the source, in source
order, with the payload the source interpolates into the message. -/
def validateToken (u : List Char) (T : Nat) : Except RangeError (Int × Int) :=
  if '-' ∈ u then
    match splitOnC '-' u with
    | p1 :: p2 :: _ =>
      match parseIntJS (trimL p1), parseIntJS (trimL p2) with
      | some a, some b =>
        if a < 1 ∨ b < 1 then .error ⟨.nonPositivePage, u⟩
        else if a > (T : Int) ∨ b > (T : Int) then .error ⟨.pageOutOfBounds, u⟩
        else if a > b then .error ⟨.invertedRange, u⟩
        else .ok (a, b)
      | _, _ => .error ⟨.malformedToken, u⟩
    | _ => .error ⟨.malformedToken, u⟩
  else
    match parseIntJS u with
    | none => .error ⟨.malformedToken, u⟩
    | some p =>
      if p < 1 then .error ⟨.nonPositivePage, u⟩
      else if p > (T : Int) then .error ⟨.pageOutOfBounds, intDecimal p⟩
      else .ok (p, p)

/-- Left-to-right validation of the comma-separated tokens (each trimmed as
by `.map(part => part.trim())` in the source); the first failure aborts, a
full pass collects one interval per token in input order. -/
def parseTokens (raws : List (List Char)) (T : Nat) :
    Except RangeError (List (Int × Int)) :=
  match raws with
  | [] => .ok []
  | raw :: rest =>
    match validateToken (trimL raw) T with
    | .error e => .error e
    | .ok iv =>
      match parseTokens rest T with
      | .error e => .error e
      | .ok l => .ok (iv :: l)

/-- The parser `parseRanges(rangeString)` of `PDFSplitter.tsx`, with the
document's page count passed explicitly (the source reads it from component
state): reject input that trims to nothing, otherwise split on commas and
validate each trimmed token in order. -/
def parseRanges (s : String) (T : Nat) : Except RangeError (List (Int × Int)) :=
  if trimL s.data = [] then .error ⟨.emptyInput, []⟩
  else parseTokens (splitOnC ',' s.data) T

instance {ε α : Type} [DecidableEq ε] [DecidableEq α] : DecidableEq (Except ε α) := fun a b =>
  match a, b with
  | .ok x, .ok y =>
    if h : x = y then .isTrue (by rw [h])
    else .isFalse (fun hc => by cases hc; exact h rfl)
  | .error x, .error y =>
    if h : x = y then .isTrue (by rw [h])
    else .isFalse (fun hc => by cases hc; exact h rfl)
  | .ok _, .error _ => .isFalse (fun hc => by cases hc)
  | .error _, .ok _ => .isFalse (fun hc => by cases hc)

/-- The error kind of a parse outcome, `none` on success. -/
def errKindOf {α : Type} : Except RangeError α → Option ErrKind
  | .error e => some e.kind
  | .ok _ => none

/-- The numbers a trimmed token denotes under the source's reading: the first
two `-`-separated parts for a token containing `-`, the token itself
otherwise (a single page `N` read as the degenerate pair `(N, N)`);
`none` when the required numbers fail to parse. -/
def tokenNums (u : List Char) : Option (Int × Int) :=
  if '-' ∈ u then
    match splitOnC '-' u with
    | p1 :: p2 :: _ =>
      match parseIntJS (trimL p1), parseIntJS (trimL p2) with
      | some a, some b => some (a, b)
      | _, _ => none
    | _ => none
  else (parseIntJS u).map (fun p => (p, p))

/-- Modelled from the spec's rule order for per-token validation: rule 1,
numeric well-formedness (`MalformedToken`); rule 2, positivity of all parsed
numbers (`NonPositivePage`); rule 3, upper bound against `totalPages`
(`PageOutOfBounds`); rule 4, range ordering (`InvertedRange`); first failure
wins. Stated over error kinds only, to be compared with `validateToken`. -/
def specValidate (u : List Char) (T : Nat) : Except ErrKind (Int × Int) :=
  match tokenNums u with
  | none => .error .malformedToken
  | some (a, b) =>
    if 1 ≤ a ∧ 1 ≤ b then
      if a ≤ (T : Int) ∧ b ≤ (T : Int) then
        if a ≤ b then .ok (a, b) else .error .invertedRange
      else .error .pageOutOfBounds
    else .error .nonPositivePage

example : parseRanges "1-3, 5, 7-10" 12 = .ok [(1, 3), (5, 5), (7, 10)] := by decide
example : parseRanges "3-1" 5 = .error ⟨.invertedRange, "3-1".data⟩ := by decide
example : parseRanges "0" 5 = .error ⟨.nonPositivePage, "0".data⟩ := by decide
example : parseRanges "6" 5 = .error ⟨.pageOutOfBounds, "6".data⟩ := by decide
example : parseRanges "" 5 = .error ⟨.emptyInput, []⟩ := by decide
example : parseRanges "2--4" 5 = .error ⟨.malformedToken, "2--4".data⟩ := by decide
example : parseRanges "0x" 5 = .error ⟨.malformedToken, "0x".data⟩ := by decide
example : parseRanges "2a" 5 = .ok [(2, 2)] := by decide
example : parseRanges "1-2-3" 3 = .ok [(1, 2)] := by decide
example : parseRanges " 07x " 5 = .error ⟨.pageOutOfBounds, "7".data⟩ := by decide

theorem splitOnC_ne_nil (sep : Char) (l : List Char) : splitOnC sep l ≠ [] := by
  induction l with
  | nil => simp [splitOnC]
  | cons c r ih =>
    simp only [splitOnC]
    split
    · simp
    · split <;> simp

theorem splitOnC_of_not_mem {sep : Char} {l : List Char} (h : sep ∉ l) :
    splitOnC sep l = [l] := by
  induction l with
  | nil => rfl
  | cons c r ih =>
    have hc : c ≠ sep := fun hh => h (hh ▸ List.mem_cons_self c r)
    have hr : sep ∉ r := fun hh => h (List.mem_cons_of_mem c hh)
    simp only [splitOnC, if_neg hc, ih hr]

theorem sep_mem_of_splitOnC {sep : Char} {l p1 p2 : List Char}
    {ps : List (List Char)} (h : splitOnC sep l = p1 :: p2 :: ps) : sep ∈ l := by
  by_contra hn
  rw [splitOnC_of_not_mem hn] at h
  simp at h

theorem mem_of_mem_trimL {l : List Char} {c : Char} (h : c ∈ trimL l) : c ∈ l := by
  unfold trimL at h
  rw [List.mem_reverse] at h
  have h2 := (List.dropWhile_sublist isWS).mem h
  rw [List.mem_reverse] at h2
  exact (List.dropWhile_sublist isWS).mem h2

theorem trimL_eq_nil_iff {l : List Char} : trimL l = [] ↔ ∀ c ∈ l, isWS c := by
  constructor
  · intro h c hc
    unfold trimL at h
    rw [List.reverse_eq_nil_iff, List.dropWhile_eq_nil_iff] at h
    have hsplit : c ∈ List.takeWhile isWS l ++ List.dropWhile isWS l := by
      rw [List.takeWhile_append_dropWhile]; exact hc
    rcases List.mem_append.mp hsplit with h1 | h1
    · exact List.mem_takeWhile_imp h1
    · exact h c (List.mem_reverse.mpr h1)
  · intro h
    unfold trimL
    rw [List.reverse_eq_nil_iff, List.dropWhile_eq_nil_iff]
    intro c hc
    rw [List.mem_reverse] at hc
    exact h c ((List.dropWhile_sublist isWS).mem hc)

theorem trimL_of_no_ws {l : List Char} (h : ∀ c ∈ l, isWS c = false) :
    trimL l = l := by
  have hdw : ∀ m : List Char, (∀ c ∈ m, isWS c = false) → m.dropWhile isWS = m := by
    intro m hm
    cases m with
    | nil => rfl
    | cons a r => exact List.dropWhile_cons_of_neg (by simp [hm a (List.mem_cons_self a r)])
  unfold trimL
  rw [hdw l h, hdw l.reverse (fun c hc => h c (List.mem_reverse.mp hc)), List.reverse_reverse]

theorem decVal_eq_some {c : Char} {d : Nat} (h : decVal c = some d) :
    48 ≤ c.toNat ∧ c.toNat ≤ 57 ∧ d = c.toNat - 48 := by
  unfold decVal at h
  split at h
  · rename_i hc
    exact ⟨hc.1, hc.2, (Option.some.injEq _ _ ▸ h).symm⟩
  · cases h

theorem decVal_isSome_iff {c : Char} :
    (decVal c).isSome = true ↔ 48 ≤ c.toNat ∧ c.toNat ≤ 57 := by
  unfold decVal
  split <;> rename_i hc <;> simp [hc]

theorem digit_facts {c : Char} (h : (decVal c).isSome = true) :
    isWS c = false ∧ c ≠ '-' ∧ c ≠ '+' ∧ c ≠ 'x' ∧ c ≠ 'X' ∧ c ≠ ',' := by
  rw [decVal_isSome_iff] at h
  refine ⟨?_, ?_, ?_, ?_, ?_, ?_⟩
  · unfold isWS
    simp only [Bool.or_eq_false_iff, Bool.and_eq_false_iff, decide_eq_false_iff_not]
    omega
  all_goals
    intro hc
    subst hc
    exact absurd h (by decide)

theorem digitsVal_append {f : Char → Option Nat} {b : Nat} {xs : List Char}
    (h : ∀ c ∈ xs, (f c).isSome = true) (acc : Nat) (ys : List Char) :
    digitsVal f b acc (xs ++ ys) = digitsVal f b (digitsVal f b acc xs) ys := by
  induction xs generalizing acc with
  | nil => rfl
  | cons c r ih =>
    have hc := h c (List.mem_cons_self c r)
    rcases hd : f c with _ | d
    · rw [hd] at hc; cases hc
    · simp only [List.cons_append, digitsVal, hd]
      exact ih (fun x hx => h x (List.mem_cons_of_mem c hx)) _

theorem digitsVal_stop {f : Char → Option Nat} {b : Nat} {c : Char}
    (h : f c = none) (acc : Nat) (ys : List Char) :
    digitsVal f b acc (c :: ys) = acc := by
  simp only [digitsVal, h]

theorem natDigitsRevGo_congr :
    ∀ f1 f2 n : Nat, n ≤ f1 → n ≤ f2 → natDigitsRevGo f1 n = natDigitsRevGo f2 n := by
  intro f1
  induction f1 with
  | zero =>
    intro f2 n h1 h2
    have hn : n = 0 := Nat.le_zero.mp h1
    subst hn
    cases f2 <;> simp [natDigitsRevGo]
  | succ f ih =>
    intro f2 n h1 h2
    by_cases hn : n = 0
    · subst hn
      cases f2 <;> simp [natDigitsRevGo]
    · cases f2 with
      | zero => omega
      | succ g =>
        simp only [natDigitsRevGo, if_neg hn]
        exact congrArg _ (ih g (n / 10) (by omega) (by omega))

theorem natDigitsRev_def (n : Nat) :
    natDigitsRev n =
      if n = 0 then [] else Nat.digitChar (n % 10) :: natDigitsRev (n / 10) := by
  cases n with
  | zero => rfl
  | succ m =>
    show natDigitsRevGo (m + 1) (m + 1) = _
    simp only [natDigitsRevGo, if_neg (Nat.succ_ne_zero m)]
    exact congrArg _ (natDigitsRevGo_congr m ((m + 1) / 10) ((m + 1) / 10)
      (by omega) (Nat.le_refl _))

theorem decVal_digitChar {d : Nat} (h : d < 10) : decVal (Nat.digitChar d) = some d := by
  interval_cases d <;> decide

theorem natDigitsRev_digits (n : Nat) : ∀ c ∈ natDigitsRev n, (decVal c).isSome = true := by
  induction n using Nat.strong_induction_on with
  | _ n ih =>
    rw [natDigitsRev_def]
    split
    · simp
    · rename_i hn
      intro c hc
      rcases List.mem_cons.mp hc with h | h
      · subst h
        rw [decVal_digitChar (Nat.mod_lt n (by omega))]
        rfl
      · exact ih (n / 10) (Nat.div_lt_self (Nat.pos_of_ne_zero hn) (by omega)) c h

theorem digitsVal_natDigitsRev :
    ∀ n : Nat, n ≠ 0 → ∀ acc : Nat,
      digitsVal decVal 10 acc (natDigitsRev n).reverse =
        acc * 10 ^ (natDigitsRev n).length + n := by
  intro n
  induction n using Nat.strong_induction_on with
  | _ n ih =>
    intro hn acc
    rw [natDigitsRev_def, if_neg hn]
    by_cases h10 : n / 10 = 0
    · have hsmall : n < 10 := by omega
      rw [h10, show natDigitsRev 0 = [] from rfl]
      show digitsVal decVal 10 acc [Nat.digitChar (n % 10)] = _
      simp only [digitsVal, decVal_digitChar (Nat.mod_lt n (by omega))]
      simp only [List.length_cons, List.length_nil, pow_succ, pow_zero, Nat.one_mul]
      omega
    · have hdig : ∀ c ∈ (natDigitsRev (n / 10)).reverse, (decVal c).isSome = true :=
        fun c hc => natDigitsRev_digits (n / 10) c (List.mem_reverse.mp hc)
      rw [List.reverse_cons, digitsVal_append hdig,
        ih (n / 10) (Nat.div_lt_self (Nat.pos_of_ne_zero hn) (by omega)) h10]
      simp only [digitsVal, decVal_digitChar (Nat.mod_lt n (by omega))]
      rw [List.length_cons, pow_succ, ← Nat.mul_assoc]
      omega

theorem natDecimal_ne_nil (n : Nat) : natDecimal n ≠ [] := by
  unfold natDecimal
  split
  · simp
  · rename_i hn
    rw [natDigitsRev_def, if_neg hn]
    simp

theorem natDecimal_digits (n : Nat) : ∀ c ∈ natDecimal n, (decVal c).isSome = true := by
  unfold natDecimal
  split
  · intro c hc
    rw [List.mem_singleton] at hc
    subst hc
    decide
  · intro c hc
    exact natDigitsRev_digits n c (List.mem_reverse.mp hc)

theorem parseDigits_natDecimal (n : Nat) :
    parseDigits decVal 10 (natDecimal n) = some n := by
  by_cases hn : n = 0
  · subst hn; decide
  · have hrev : natDecimal n = (natDigitsRev n).reverse := by
      unfold natDecimal; rw [if_neg hn]
    obtain ⟨c, r, hcr⟩ : ∃ c r, natDecimal n = c :: r := by
      rcases hl : natDecimal n with _ | ⟨c, r⟩
      · exact absurd hl (natDecimal_ne_nil n)
      · exact ⟨c, r, rfl⟩
    have hc : (decVal c).isSome = true :=
      natDecimal_digits n c (hcr ▸ List.mem_cons_self c r)
    rcases hd : decVal c with _ | d
    · rw [hd] at hc; cases hc
    · have hval := digitsVal_natDigitsRev n hn 0
      rw [← hrev, hcr] at hval
      simp only [parseDigits, hcr, hd, hval, Nat.zero_mul, Nat.zero_add]

theorem parseDigits_prefix {ds rest : List Char}
    (hne : ds ≠ []) (hds : ∀ c ∈ ds, (decVal c).isSome = true)
    (hrest : rest = [] ∨ ∃ c rs, rest = c :: rs ∧ decVal c = none) :
    parseDigits decVal 10 (ds ++ rest) = parseDigits decVal 10 ds := by
  rcases hrest with hrest | ⟨c, rs, hrest, hcnone⟩
  · rw [hrest, List.append_nil]
  · rcases ds with _ | ⟨d0, ds'⟩
    · exact absurd rfl hne
    · have hd0 : (decVal d0).isSome = true := hds d0 (List.mem_cons_self d0 ds')
      rcases hd : decVal d0 with _ | d
      · rw [hd] at hd0; cases hd0
      · simp only [List.cons_append, parseDigits, hd]
        rw [show d0 :: (ds' ++ rest) = (d0 :: ds') ++ rest from rfl, hrest,
          digitsVal_append hds, digitsVal_stop hcnone]

theorem parseIntJS_digits_append {ds rest : List Char}
    (hne : ds ≠ []) (hds : ∀ c ∈ ds, (decVal c).isSome = true)
    (hrest : rest = [] ∨ ∃ c rs, rest = c :: rs ∧ decVal c = none ∧
      ¬(ds = ['0'] ∧ (c = 'x' ∨ c = 'X'))) :
    parseIntJS (ds ++ rest) = (parseDigits decVal 10 ds).map Int.ofNat := by
  rcases ds with _ | ⟨d0, ds'⟩
  · exact absurd rfl hne
  have hf := digit_facts (hds d0 (List.mem_cons_self d0 ds'))
  have hdw : List.dropWhile isWS (d0 :: (ds' ++ rest)) = d0 :: (ds' ++ rest) :=
    List.dropWhile_cons_of_neg (by simp [hf.1])
  have hbody : parseIntBody (d0 :: (ds' ++ rest)) =
      parseDigits decVal 10 (d0 :: (ds' ++ rest)) := by
    rcases ds' with _ | ⟨d1, ds''⟩
    · rcases hrest with h | ⟨c, rs, hr, hcnone, hnot0x⟩
      · subst h; rfl
      · subst hr
        show (if d0 = '0' ∧ (c = 'x' ∨ c = 'X') then parseDigits hexVal 16 rs
          else parseDigits decVal 10 (d0 :: c :: rs)) = _
        rw [if_neg (fun hand => hnot0x ⟨by rw [hand.1], hand.2⟩)]
        rfl
    · have hd1 := digit_facts (hds d1 (by simp))
      show (if d0 = '0' ∧ (d1 = 'x' ∨ d1 = 'X') then parseDigits hexVal 16 (ds'' ++ rest)
        else parseDigits decVal 10 (d0 :: d1 :: (ds'' ++ rest))) = _
      rw [if_neg ?hcond]
      · rfl
      case hcond =>
        rintro ⟨h0, hx | hx⟩
        · exact hd1.2.2.2.1 hx
        · exact hd1.2.2.2.2.1 hx
  have hpd : parseDigits decVal 10 (d0 :: (ds' ++ rest)) =
      parseDigits decVal 10 (d0 :: ds') := by
    rw [show d0 :: (ds' ++ rest) = (d0 :: ds') ++ rest from rfl]
    refine parseDigits_prefix hne hds ?_
    rcases hrest with h | ⟨c, rs, hr, hcnone, _⟩
    · exact Or.inl h
    · exact Or.inr ⟨c, rs, hr, hcnone⟩
  show parseIntJS (d0 :: (ds' ++ rest)) = _
  unfold parseIntJS
  simp only [hdw]
  rw [if_neg hf.2.1, if_neg hf.2.2.1, hbody, hpd]

theorem parseIntJS_natDecimal (n : Nat) : parseIntJS (natDecimal n) = some (n : Int) := by
  have h := parseIntJS_digits_append (natDecimal_ne_nil n) (natDecimal_digits n)
    (Or.inl rfl)
  rw [List.append_nil] at h
  rw [h, parseDigits_natDecimal]
  rfl

theorem trimL_digits {l : List Char} (h : ∀ c ∈ l, (decVal c).isSome = true) :
    trimL l = l :=
  trimL_of_no_ws (fun c hc => (digit_facts (h c hc)).1)

theorem not_mem_of_digits {l : List Char} (h : ∀ c ∈ l, (decVal c).isSome = true)
    {s : Char} (hs : (decVal s).isSome = false) : s ∉ l := by
  intro hm
  rw [h s hm] at hs
  cases hs

theorem validateToken_ok_iff {u : List Char} {T : Nat} {a b : Int} :
    validateToken u T = .ok (a, b) ↔
      tokenNums u = some (a, b) ∧ 1 ≤ a ∧ 1 ≤ b ∧ a ≤ (T : Int) ∧ b ≤ (T : Int) ∧
        a ≤ b := by
  by_cases hd : '-' ∈ u
  · rcases hsp : splitOnC '-' u with _ | ⟨p1, _ | ⟨p2, ps⟩⟩
    · exact absurd hsp (splitOnC_ne_nil '-' u)
    · constructor
      · intro h
        unfold validateToken at h
        rw [if_pos hd, hsp] at h
        exact absurd h (by simp)
      · rintro ⟨heq, -⟩
        unfold tokenNums at heq
        rw [if_pos hd, hsp] at heq
        exact absurd heq (by simp)
    · have hvt : validateToken u T =
          match parseIntJS (trimL p1), parseIntJS (trimL p2) with
          | some av, some bv =>
            if av < 1 ∨ bv < 1 then .error ⟨.nonPositivePage, u⟩
            else if av > (T : Int) ∨ bv > (T : Int) then .error ⟨.pageOutOfBounds, u⟩
            else if av > bv then .error ⟨.invertedRange, u⟩
            else .ok (av, bv)
          | _, _ => .error ⟨.malformedToken, u⟩ := by
        unfold validateToken
        rw [if_pos hd, hsp]
      have htn : tokenNums u =
          match parseIntJS (trimL p1), parseIntJS (trimL p2) with
          | some av, some bv => some (av, bv)
          | _, _ => none := by
        unfold tokenNums
        rw [if_pos hd, hsp]
      rw [hvt, htn]
      rcases parseIntJS (trimL p1) with _ | av
      · simp
      · rcases parseIntJS (trimL p2) with _ | bv
        · simp
        · simp only []
          constructor
          · intro h
            split_ifs at h with c1 c2 c3
            rw [Except.ok.injEq, Prod.mk.injEq] at h
            obtain ⟨rfl, rfl⟩ := h
            exact ⟨rfl, by omega, by omega, by omega, by omega, by omega⟩
          · rintro ⟨heq, ha1, hb1, haT, hbT, hab⟩
            rw [Option.some.injEq, Prod.mk.injEq] at heq
            obtain ⟨rfl, rfl⟩ := heq
            rw [if_neg (by omega), if_neg (by omega), if_neg (by omega)]
  · have hvt : validateToken u T =
        match parseIntJS u with
        | none => .error ⟨.malformedToken, u⟩
        | some p =>
          if p < 1 then .error ⟨.nonPositivePage, u⟩
          else if p > (T : Int) then .error ⟨.pageOutOfBounds, intDecimal p⟩
          else .ok (p, p) := by
      unfold validateToken
      rw [if_neg hd]
    have htn : tokenNums u = (parseIntJS u).map (fun p => (p, p)) := by
      unfold tokenNums
      rw [if_neg hd]
    rw [hvt, htn]
    rcases parseIntJS u with _ | p
    · simp
    · rw [Option.map_some']
      simp only []
      constructor
      · intro h
        split_ifs at h with c1 c2
        rw [Except.ok.injEq, Prod.mk.injEq] at h
        obtain ⟨rfl, rfl⟩ := h
        exact ⟨rfl, by omega, by omega, by omega, by omega, by omega⟩
      · rintro ⟨heq, ha1, hb1, haT, hbT, hab⟩
        rw [Option.some.injEq, Prod.mk.injEq] at heq
        obtain ⟨rfl, rfl⟩ := heq
        rw [if_neg (by omega), if_neg (by omega)]

theorem validateToken_error_payload {u : List Char} {T : Nat} {e : RangeError}
    (h : validateToken u T = .error e) :
    e.payload = u ∨
      (e.kind = .pageOutOfBounds ∧
        ∃ p : Int, parseIntJS u = some p ∧ e.payload = intDecimal p) := by
  unfold validateToken at h
  by_cases hd : '-' ∈ u
  · rw [if_pos hd] at h
    rcases hsp : splitOnC '-' u with _ | ⟨p1, _ | ⟨p2, ps⟩⟩ <;> rw [hsp] at h <;>
      simp only [] at h
    · rw [Except.error.injEq] at h
      subst h
      exact Or.inl rfl
    · rw [Except.error.injEq] at h
      subst h
      exact Or.inl rfl
    · rcases hp1 : parseIntJS (trimL p1) with _ | av <;>
        rcases hp2 : parseIntJS (trimL p2) with _ | bv <;>
        rw [hp1, hp2] at h <;> simp only [] at h
      · rw [Except.error.injEq] at h
        subst h
        exact Or.inl rfl
      · rw [Except.error.injEq] at h
        subst h
        exact Or.inl rfl
      · rw [Except.error.injEq] at h
        subst h
        exact Or.inl rfl
      · split_ifs at h <;> (rw [Except.error.injEq] at h; subst h; exact Or.inl rfl)
  · rw [if_neg hd] at h
    rcases hp : parseIntJS u with _ | p <;> rw [hp] at h <;> simp only [] at h
    · rw [Except.error.injEq] at h
      subst h
      exact Or.inl rfl
    · split_ifs at h with c1 c2
      · rw [Except.error.injEq] at h
        subst h
        exact Or.inl rfl
      · rw [Except.error.injEq] at h
        subst h
        exact Or.inr ⟨rfl, p, rfl, rfl⟩

theorem validateToken_mapError_spec (u : List Char) (T : Nat) :
    (validateToken u T).mapError RangeError.kind = specValidate u T := by
  by_cases hd : '-' ∈ u
  · rcases hsp : splitOnC '-' u with _ | ⟨p1, _ | ⟨p2, ps⟩⟩
    · exact absurd hsp (splitOnC_ne_nil '-' u)
    · have hvt : validateToken u T = .error ⟨.malformedToken, u⟩ := by
        unfold validateToken
        rw [if_pos hd, hsp]
      have htn : tokenNums u = none := by
        unfold tokenNums
        rw [if_pos hd, hsp]
      unfold specValidate
      rw [hvt, htn]
      rfl
    · rcases hp1 : parseIntJS (trimL p1) with _ | av <;>
        rcases hp2 : parseIntJS (trimL p2) with _ | bv
      · have hvt : validateToken u T = .error ⟨.malformedToken, u⟩ := by
          unfold validateToken
          rw [if_pos hd, hsp]
          simp only [hp1, hp2]
        have htn : tokenNums u = none := by
          unfold tokenNums
          rw [if_pos hd, hsp]
          simp only [hp1, hp2]
        unfold specValidate
        rw [hvt, htn]
        rfl
      · have hvt : validateToken u T = .error ⟨.malformedToken, u⟩ := by
          unfold validateToken
          rw [if_pos hd, hsp]
          simp only [hp1, hp2]
        have htn : tokenNums u = none := by
          unfold tokenNums
          rw [if_pos hd, hsp]
          simp only [hp1, hp2]
        unfold specValidate
        rw [hvt, htn]
        rfl
      · have hvt : validateToken u T = .error ⟨.malformedToken, u⟩ := by
          unfold validateToken
          rw [if_pos hd, hsp]
          simp only [hp1, hp2]
        have htn : tokenNums u = none := by
          unfold tokenNums
          rw [if_pos hd, hsp]
          simp only [hp1, hp2]
        unfold specValidate
        rw [hvt, htn]
        rfl
      · have hvt : validateToken u T =
            if av < 1 ∨ bv < 1 then .error ⟨.nonPositivePage, u⟩
            else if av > (T : Int) ∨ bv > (T : Int) then .error ⟨.pageOutOfBounds, u⟩
            else if av > bv then .error ⟨.invertedRange, u⟩
            else .ok (av, bv) := by
          unfold validateToken
          rw [if_pos hd, hsp]
          simp only [hp1, hp2]
        have htn : tokenNums u = some (av, bv) := by
          unfold tokenNums
          rw [if_pos hd, hsp]
          simp only [hp1, hp2]
        unfold specValidate
        rw [hvt, htn]
        by_cases c1 : av < 1 ∨ bv < 1
        · rw [if_pos c1]
          simp only []
          rw [if_neg (by omega)]
          rfl
        · rw [if_neg c1]
          simp only []
          rw [if_pos (by omega : (1 : Int) ≤ av ∧ (1 : Int) ≤ bv)]
          by_cases c2 : av > (T : Int) ∨ bv > (T : Int)
          · rw [if_pos c2, if_neg (by omega)]
            rfl
          · rw [if_neg c2, if_pos (by omega : av ≤ (T : Int) ∧ bv ≤ (T : Int))]
            by_cases c3 : av > bv
            · rw [if_pos c3, if_neg (by omega)]
              rfl
            · rw [if_neg c3, if_pos (by omega : av ≤ bv)]
              rfl
  · have htn : tokenNums u = (parseIntJS u).map (fun p => (p, p)) := by
      unfold tokenNums
      rw [if_neg hd]
    rcases hp : parseIntJS u with _ | p
    · have hvt : validateToken u T = .error ⟨.malformedToken, u⟩ := by
        unfold validateToken
        rw [if_neg hd]
        simp only [hp]
      unfold specValidate
      rw [hvt, htn, hp]
      rfl
    · have hvt : validateToken u T =
          if p < 1 then .error ⟨.nonPositivePage, u⟩
          else if p > (T : Int) then .error ⟨.pageOutOfBounds, intDecimal p⟩
          else .ok (p, p) := by
        unfold validateToken
        rw [if_neg hd]
        simp only [hp]
      unfold specValidate
      rw [hvt, htn, hp, Option.map_some']
      simp only []
      by_cases c1 : p < 1
      · rw [if_pos c1, if_neg (by omega)]
        rfl
      · rw [if_neg c1, if_pos (by omega : (1 : Int) ≤ p ∧ (1 : Int) ≤ p)]
        by_cases c2 : p > (T : Int)
        · rw [if_pos c2, if_neg (by omega)]
          rfl
        · rw [if_neg c2, if_pos (by omega : p ≤ (T : Int) ∧ p ≤ (T : Int)),
            if_pos (le_refl p)]
          rfl

theorem parseTokens_ok_iff {raws : List (List Char)} {T : Nat} {l : List (Int × Int)} :
    parseTokens raws T = .ok l ↔
      List.Forall₂ (fun raw iv => validateToken (trimL raw) T = .ok iv) raws l := by
  induction raws generalizing l with
  | nil =>
    constructor
    · intro h
      rw [show parseTokens [] T = .ok [] from rfl, Except.ok.injEq] at h
      subst h
      exact List.Forall₂.nil
    · intro h
      cases h
      rfl
  | cons raw rest ih =>
    constructor
    · intro h
      unfold parseTokens at h
      rcases hv : validateToken (trimL raw) T with e | iv <;> rw [hv] at h <;>
        simp only [] at h
      · simp at h
      · rcases hr : parseTokens rest T with e | l2 <;> rw [hr] at h <;>
          simp only [] at h
        · simp at h
        · rw [Except.ok.injEq] at h
          subst h
          exact List.Forall₂.cons hv (ih.mp hr)
    · intro h
      cases h with
      | cons hv hrest =>
        unfold parseTokens
        simp only [hv, ih.mpr hrest]

theorem parseTokens_prefix_error {T : Nat} {pre : List (List Char)} {u : List Char}
    {post : List (List Char)} {e : RangeError}
    (hpre : ∀ v ∈ pre, ∃ iv, validateToken (trimL v) T = .ok iv)
    (hu : validateToken (trimL u) T = .error e) :
    parseTokens (pre ++ u :: post) T = .error e := by
  induction pre with
  | nil =>
    show parseTokens (u :: post) T = .error e
    unfold parseTokens
    simp only [hu]
  | cons v vs ih =>
    obtain ⟨iv, hiv⟩ := hpre v (List.mem_cons_self v vs)
    have hrec := ih (fun w hw => hpre w (List.mem_cons_of_mem v hw))
    show parseTokens (v :: (vs ++ u :: post)) T = .error e
    unfold parseTokens
    simp only [hiv, hrec]

theorem parseTokens_error_source {raws : List (List Char)} {T : Nat} {e : RangeError}
    (h : parseTokens raws T = .error e) :
    ∃ raw ∈ raws, validateToken (trimL raw) T = .error e := by
  induction raws with
  | nil => simp [parseTokens] at h
  | cons raw rest ih =>
    unfold parseTokens at h
    rcases hv : validateToken (trimL raw) T with e2 | iv <;> rw [hv] at h <;>
      simp only [] at h
    · rw [Except.error.injEq] at h
      subst h
      exact ⟨raw, List.mem_cons_self raw rest, hv⟩
    · rcases hr : parseTokens rest T with e2 | l2 <;> rw [hr] at h <;>
        simp only [] at h
      · rw [Except.error.injEq] at h
        subst h
        obtain ⟨w, hw, hvw⟩ := ih hr
        exact ⟨w, List.mem_cons_of_mem raw hw, hvw⟩
      · simp at h

theorem validateToken_nil (T : Nat) :
    validateToken [] T = .error ⟨.malformedToken, []⟩ := rfl

theorem parseTokens_all_ok {T : Nat} : ∀ {raws : List (List Char)},
    (∀ raw ∈ raws, ∃ iv, validateToken (trimL raw) T = .ok iv) →
    ∃ l, parseTokens raws T = .ok l := by
  intro raws
  induction raws with
  | nil => exact fun _ => ⟨[], rfl⟩
  | cons raw rest ih =>
    intro hr
    obtain ⟨iv, hiv⟩ := hr raw (List.mem_cons_self raw rest)
    obtain ⟨l2, hl2⟩ := ih (fun w hw => hr w (List.mem_cons_of_mem raw hw))
    exact ⟨iv :: l2, by unfold parseTokens; simp only [hiv, hl2]⟩

theorem parseTokens_ok_bounds {raws : List (List Char)} {T : Nat}
    {l : List (Int × Int)} (h : parseTokens raws T = .ok l) :
    ∀ p ∈ l, 1 ≤ p.1 ∧ p.1 ≤ p.2 ∧ p.2 ≤ (T : Int) := by
  induction raws generalizing l with
  | nil =>
    rw [show parseTokens [] T = .ok [] from rfl, Except.ok.injEq] at h
    subst h
    intro p hp
    simp at hp
  | cons raw rest ih =>
    unfold parseTokens at h
    rcases hv : validateToken (trimL raw) T with e | iv <;> rw [hv] at h <;>
      simp only [] at h
    · simp at h
    · rcases hr : parseTokens rest T with e | l2 <;> rw [hr] at h <;>
        simp only [] at h
      · simp at h
      · rw [Except.ok.injEq] at h
        subst h
        intro p hp
        rcases List.mem_cons.mp hp with rfl | hp2
        · rcases p with ⟨a, b⟩
          have hb := validateToken_ok_iff.mp hv
          exact ⟨hb.2.1, hb.2.2.2.2.2, hb.2.2.2.2.1⟩
        · exact ih hr p hp2

theorem parseTokens_mono {raws : List (List Char)} {T Tp : Nat}
    {l : List (Int × Int)} (hT : T ≤ Tp) (h : parseTokens raws T = .ok l) :
    parseTokens raws Tp = .ok l := by
  rw [parseTokens_ok_iff] at h ⊢
  refine List.Forall₂.imp ?_ h
  intro raw iv hv
  rcases iv with ⟨a, b⟩
  rw [validateToken_ok_iff] at hv ⊢
  obtain ⟨h1, h2, h3, h4, h5, h6⟩ := hv
  exact ⟨h1, h2, h3, by omega, by omega, h6⟩

theorem intDecimal_natCast (n : Nat) : intDecimal ((n : Nat) : Int) = natDecimal n := by
  unfold intDecimal
  rw [if_neg (by omega)]
  rfl

theorem string_mk_data (l : List Char) : (String.mk l).data = l := rfl

/-- C8: for every page count, an empty input string, and more generally any input
consisting only of whitespace, is rejected with the `EmptyInput` error kind
(producing no intervals), e.g. `parseRanges "" 5` is the `EmptyInput` failure. -/
theorem empty_or_whitespace_emptyInput :
    (∀ (s : String) (T : Nat), (∀ c ∈ s.data, isWS c = true) →
      parseRanges s T = .error ⟨.emptyInput, []⟩) ∧
    parseRanges "" 5 = .error ⟨.emptyInput, []⟩ := by
  refine ⟨?_, by decide⟩
  intro s T h
  unfold parseRanges
  rw [if_pos (trimL_eq_nil_iff.mpr h)]

theorem empty_or_whitespace_emptyInput_witness :
    parseRanges "  " 7 = .error ⟨.emptyInput, []⟩ :=
  empty_or_whitespace_emptyInput.1 "  " 7 (by decide)

/-- C3: whenever `parseRanges` succeeds, every interval `(start, end)` in the
returned sequence satisfies `1 ≤ start`, `start ≤ end` and `end ≤ totalPages`. -/
theorem parse_ok_interval_bounds (s : String) (T : Nat) (l : List (Int × Int))
    (h : parseRanges s T = .ok l) :
    ∀ p ∈ l, 1 ≤ p.1 ∧ p.1 ≤ p.2 ∧ p.2 ≤ (T : Int) := by
  unfold parseRanges at h
  split at h
  · simp at h
  · exact parseTokens_ok_bounds h

theorem parse_ok_interval_bounds_witness :
    1 ≤ ((2 : Int), (4 : Int)).1 ∧ ((2 : Int), (4 : Int)).1 ≤ ((2 : Int), (4 : Int)).2 ∧
      ((2 : Int), (4 : Int)).2 ≤ ((9 : Nat) : Int) :=
  parse_ok_interval_bounds "2-4" 9 [(2, 4)] (by decide) (2, 4) (by decide)

/-- C6: monotonic rejection — if `parseRanges s T` succeeds then for any larger
page count `Tp > T` the parse also succeeds with the identical interval list. -/
theorem parse_monotone_in_total_pages (s : String) (T Tp : Nat)
    (l : List (Int × Int)) (hT : T < Tp) (h : parseRanges s T = .ok l) :
    parseRanges s Tp = .ok l := by
  unfold parseRanges at h ⊢
  split at h
  · simp at h
  · rename_i hne
    rw [if_neg hne]
    exact parseTokens_mono (Nat.le_of_lt hT) h

theorem parse_monotone_in_total_pages_witness :
    parseRanges "2" 3 = .ok [(2, 2)] :=
  parse_monotone_in_total_pages "2" 2 3 [(2, 2)] (by decide) (by decide)

/-- C1: when every comma-separated token of the input validates, the parse
succeeds and returns exactly one interval per token, in the tokens' order of
appearance (`List.Forall₂` pairs the k-th token with the k-th interval, so the
counts agree and nothing is deduplicated, merged or sorted); concretely,
`parseRanges "1-3, 5, 7-10" 12` is `[(1,3), (5,5), (7,10)]`, a single page `N`
contributing `(N, N)` and a range `A-B` contributing `(A, B)`. -/
theorem parse_valid_tokens_one_interval_each :
    (∀ (s : String) (T : Nat),
      (∀ raw ∈ splitOnC ',' s.data, ∃ iv, validateToken (trimL raw) T = .ok iv) →
      ∃ l, parseRanges s T = .ok l ∧
        List.Forall₂ (fun raw iv => validateToken (trimL raw) T = .ok iv)
          (splitOnC ',' s.data) l) ∧
    parseRanges "1-3, 5, 7-10" 12 = .ok [(1, 3), (5, 5), (7, 10)] := by
  refine ⟨?_, by decide⟩
  intro s T hall
  have hne : trimL s.data ≠ [] := by
    intro h0
    have hws := trimL_eq_nil_iff.mp h0
    have hnc : ',' ∉ s.data := fun hm => absurd (hws ',' hm) (by decide)
    have hsp : splitOnC ',' s.data = [s.data] := splitOnC_of_not_mem hnc
    obtain ⟨iv, hiv⟩ := hall s.data (by rw [hsp]; exact List.mem_singleton.mpr rfl)
    rw [h0, validateToken_nil] at hiv
    simp at hiv
  obtain ⟨l, hl⟩ := parseTokens_all_ok hall
  refine ⟨l, ?_, parseTokens_ok_iff.mp hl⟩
  unfold parseRanges
  rw [if_neg hne]
  exact hl

theorem parse_valid_tokens_one_interval_each_witness :
    ∃ l, parseRanges "4,2" 5 = .ok l ∧
      List.Forall₂ (fun raw iv => validateToken (trimL raw) 5 = .ok iv)
        (splitOnC ',' "4,2".data) l :=
  parse_valid_tokens_one_interval_each.1 "4,2" 5 (by
    have hsp : splitOnC ',' "4,2".data = [['4'], ['2']] := by decide
    rw [hsp]
    intro raw hraw
    rcases List.mem_cons.mp hraw with rfl | hraw2
    · exact ⟨(4, 4), by decide⟩
    · rw [List.mem_singleton] at hraw2
      subst hraw2
      exact ⟨(2, 2), by decide⟩)

/-- C2: per-token validation applies the four rules in the spec's exact order —
numeric well-formedness (`MalformedToken`), then positivity (`NonPositivePage`),
then the upper bound (`PageOutOfBounds`), then range ordering (`InvertedRange`),
first violation winning — stated as: the source's validator agrees with the
spec-ordered validator `specValidate` up to forgetting error payloads; and
tokens are checked left to right with the first invalid token's error returned,
all later tokens (here arbitrary `post`) never influencing the result. -/
theorem validation_rule_order_first_failure :
    (∀ (u : List Char) (T : Nat),
      (validateToken u T).mapError RangeError.kind = specValidate u T) ∧
    (∀ (T : Nat) (pre : List (List Char)) (u : List Char)
        (post : List (List Char)) (e : RangeError),
      (∀ v ∈ pre, ∃ iv, validateToken (trimL v) T = .ok iv) →
      validateToken (trimL u) T = .error e →
      parseTokens (pre ++ u :: post) T = .error e) :=
  ⟨validateToken_mapError_spec,
    fun _ _ _ _ _ hpre hu => parseTokens_prefix_error hpre hu⟩

theorem validation_rule_order_first_failure_witness :
    parseTokens ([['1']] ++ [' ', '0', ' '] :: [['z']]) 5 =
      .error ⟨.nonPositivePage, ['0']⟩ :=
  validation_rule_order_first_failure.2 5 [['1']] [' ', '0', ' '] [['z']]
    ⟨.nonPositivePage, ['0']⟩
    (by
      intro v hv
      rw [List.mem_singleton] at hv
      subst hv
      exact ⟨(1, 1), by decide⟩)
    (by decide)

/-- C4 counterexample: with `totalPages = 0` the non-empty input `"x"` fails
with `MalformedToken`, not `PageOutOfBounds`, refuting the claim that every
non-empty input fails with the `PageOutOfBounds` kind. -/
theorem parse_zero_total_counterexample :
    parseRanges "x" 0 = .error ⟨.malformedToken, ['x']⟩ ∧
      ErrKind.malformedToken ≠ ErrKind.pageOutOfBounds :=
  ⟨by decide, by decide⟩

theorem validateToken_zero_oob {u : List Char} {a b : Int}
    (htn : tokenNums u = some (a, b)) (ha : 1 ≤ a) (hb : 1 ≤ b) :
    ∃ e, validateToken u 0 = .error e ∧ e.kind = .pageOutOfBounds := by
  have hspec : specValidate u 0 = .error .pageOutOfBounds := by
    unfold specValidate
    rw [htn]
    simp only []
    rw [if_pos ⟨ha, hb⟩, if_neg (by omega)]
  have hme := validateToken_mapError_spec u 0
  rw [hspec] at hme
  rcases hv : validateToken u 0 with e | iv <;> rw [hv] at hme
  · have hk : Except.error (α := Int × Int) e.kind = Except.error .pageOutOfBounds := hme
    rw [Except.error.injEq] at hk
    exact ⟨e, rfl, hk⟩
  · simp [Except.mapError] at hme

/-- C4 amended: with `totalPages = 0` the parse never succeeds on any input;
when every token's numbers are well-formed and positive the failure kind is
`PageOutOfBounds`, but inputs whose first invalid token breaks an earlier rule
surface `MalformedToken` or `NonPositivePage` instead. -/
theorem parse_zero_total_never_succeeds :
    (∀ (s : String) (l : List (Int × Int)), parseRanges s 0 ≠ .ok l) ∧
    (∀ s : String,
      (∀ raw ∈ splitOnC ',' s.data, ∃ a b : Int,
        tokenNums (trimL raw) = some (a, b) ∧ 1 ≤ a ∧ 1 ≤ b) →
      ∃ e, parseRanges s 0 = .error e ∧ e.kind = .pageOutOfBounds) := by
  constructor
  · intro s l h
    unfold parseRanges at h
    split at h
    · simp at h
    · rcases hsp : splitOnC ',' s.data with _ | ⟨r0, rs⟩
      · exact absurd hsp (splitOnC_ne_nil ',' s.data)
      · rw [hsp, parseTokens_ok_iff] at h
        cases h with
        | cons hv hrest =>
          rename_i iv l2
          rcases iv with ⟨a, b⟩
          have hb := validateToken_ok_iff.mp hv
          have h1 : (1 : Int) ≤ a := hb.2.1
          have h2 : a ≤ ((0 : Nat) : Int) := hb.2.2.2.1
          omega
  · intro s hall
    have hne : trimL s.data ≠ [] := by
      intro h0
      have hws := trimL_eq_nil_iff.mp h0
      have hnc2 : ',' ∉ s.data := fun hm => absurd (hws ',' hm) (by decide)
      rw [splitOnC_of_not_mem hnc2] at hall
      obtain ⟨a, b, htn, -, -⟩ := hall s.data (List.mem_singleton.mpr rfl)
      rw [h0, show tokenNums [] = none from rfl] at htn
      simp at htn
    rcases hsp : splitOnC ',' s.data with _ | ⟨r0, rs⟩
    · exact absurd hsp (splitOnC_ne_nil ',' s.data)
    · obtain ⟨a, b, htn, ha, hb⟩ := hall r0 (by rw [hsp]; exact List.mem_cons_self r0 rs)
      obtain ⟨e, hv, hk⟩ := validateToken_zero_oob htn ha hb
      refine ⟨e, ?_, hk⟩
      unfold parseRanges
      rw [if_neg hne, hsp]
      unfold parseTokens
      simp only [hv]

theorem parse_zero_total_never_succeeds_witness :
    parseRanges "1" 0 ≠ .ok [((1 : Int), (1 : Int))] ∧
      ∃ e, parseRanges "1" 0 = .error e ∧ e.kind = .pageOutOfBounds :=
  ⟨parse_zero_total_never_succeeds.1 "1" [(1, 1)],
    parse_zero_total_never_succeeds.2 "1" (by
      have hsp : splitOnC ',' "1".data = [['1']] := by decide
      rw [hsp]
      intro raw hraw
      rw [List.mem_singleton] at hraw
      subst hraw
      exact ⟨1, 1, by decide, by decide, by decide⟩)⟩

/-- C5 counterexample: on input `" 07x "` (one token, original untrimmed text
`" 07x "`) the failure is `PageOutOfBounds` carrying the decimal rendering of
the parsed page number `7` — neither the original untrimmed token text nor even
its trimmed form — refuting the claim that failures carry the exact offending
token as it appeared in the input. -/
theorem error_payload_counterexample :
    parseRanges " 07x " 5 = .error ⟨.pageOutOfBounds, ['7']⟩ ∧
      (['7'] : List Char) ≠ " 07x ".data :=
  ⟨by decide, by decide⟩

/-- C5 amended: every non-`EmptyInput` failure is a structured value carrying
the violated rule's kind together with the trimmed text of one of the input's
comma-separated tokens — except the single-page out-of-bounds failure, which
carries the decimal rendering of the parsed page number instead of the token
text. -/
theorem error_payload_trimmed_token (s : String) (T : Nat) (e : RangeError)
    (h : parseRanges s T = .error e) (hk : e.kind ≠ .emptyInput) :
    ∃ raw ∈ splitOnC ',' s.data,
      e.payload = trimL raw ∨
        (e.kind = .pageOutOfBounds ∧
          ∃ p : Int, parseIntJS (trimL raw) = some p ∧ e.payload = intDecimal p) := by
  unfold parseRanges at h
  split at h
  · rw [Except.error.injEq] at h
    subst h
    exact absurd rfl hk
  · obtain ⟨raw, hraw, hv⟩ := parseTokens_error_source h
    exact ⟨raw, hraw, validateToken_error_payload hv⟩

theorem error_payload_trimmed_token_witness :
    ∃ raw ∈ splitOnC ',' " 0 ".data,
      (RangeError.mk .nonPositivePage ['0']).payload = trimL raw ∨
        ((RangeError.mk .nonPositivePage ['0']).kind = .pageOutOfBounds ∧
          ∃ p : Int, parseIntJS (trimL raw) = some p ∧
            (RangeError.mk .nonPositivePage ['0']).payload = intDecimal p) :=
  error_payload_trimmed_token " 0 " 5 ⟨.nonPositivePage, ['0']⟩ (by decide) (by decide)

/-- C7 counterexample: at `totalPages = 0` the input `"1-" + String(0) = "1-0"`
does not succeed — it fails with `NonPositivePage` — refuting the claim's first
half for every page count. -/
theorem boundary_counterexample :
    parseRanges "1-0" 0 = .error ⟨.nonPositivePage, "1-0".data⟩ := by decide

/-- C7 amended: for every `totalPages ≥ 1` the input `"1-" + String(totalPages)`
succeeds (yielding the single interval `(1, totalPages)`), and for every
`totalPages` the input `String(totalPages + 1)` fails with `PageOutOfBounds`. -/
theorem parse_boundary_amended (T Tp : Nat) (hT : 1 ≤ T) :
    parseRanges (String.mk ('1' :: '-' :: natDecimal T)) T =
      .ok [(1, ((T : Nat) : Int))] ∧
    parseRanges (String.mk (natDecimal (Tp + 1))) Tp =
      .error ⟨.pageOutOfBounds, natDecimal (Tp + 1)⟩ := by
  constructor
  · have hds := natDecimal_digits T
    have hnws : ∀ c ∈ '1' :: '-' :: natDecimal T, isWS c = false := by
      intro c hc
      rcases List.mem_cons.mp hc with rfl | hc2
      · decide
      · rcases List.mem_cons.mp hc2 with rfl | hc3
        · decide
        · exact (digit_facts (hds c hc3)).1
    have htr : trimL ('1' :: '-' :: natDecimal T) = '1' :: '-' :: natDecimal T :=
      trimL_of_no_ws hnws
    have hnc : ',' ∉ '1' :: '-' :: natDecimal T := by
      intro hm
      rcases List.mem_cons.mp hm with h | hm2
      · exact absurd h (by decide)
      · rcases List.mem_cons.mp hm2 with h | hm3
        · exact absurd h (by decide)
        · exact absurd (hds ',' hm3) (by decide)
    have hnd : '-' ∉ natDecimal T := not_mem_of_digits hds (by decide)
    have hsp2 : splitOnC '-' ('1' :: '-' :: natDecimal T) = [['1'], natDecimal T] := by
      simp only [splitOnC, splitOnC_of_not_mem hnd]
      simp
    have hp1 : parseIntJS (trimL ['1']) = some 1 := by decide
    have hp2 : parseIntJS (trimL (natDecimal T)) = some ((T : Nat) : Int) := by
      rw [trimL_digits hds]
      exact parseIntJS_natDecimal T
    have hdm : '-' ∈ '1' :: '-' :: natDecimal T :=
      List.mem_cons_of_mem _ (List.mem_cons_self _ _)
    have hvt : validateToken (trimL ('1' :: '-' :: natDecimal T)) T =
        .ok (1, ((T : Nat) : Int)) := by
      rw [htr]
      unfold validateToken
      rw [if_pos hdm, hsp2]
      simp only [hp1, hp2]
      rw [if_neg (by omega), if_neg (by omega), if_neg (by omega)]
    have hne2 : trimL ('1' :: '-' :: natDecimal T) ≠ [] := by
      rw [htr]
      simp
    unfold parseRanges
    rw [string_mk_data, if_neg hne2, splitOnC_of_not_mem hnc]
    unfold parseTokens
    simp only [hvt]
    rfl
  · have hds := natDecimal_digits (Tp + 1)
    have htr := trimL_digits hds
    have hne2 : natDecimal (Tp + 1) ≠ [] := natDecimal_ne_nil _
    have hnc : ',' ∉ natDecimal (Tp + 1) := not_mem_of_digits hds (by decide)
    have hnd : '-' ∉ natDecimal (Tp + 1) := not_mem_of_digits hds (by decide)
    have hpi : parseIntJS (natDecimal (Tp + 1)) = some ((Tp + 1 : Nat) : Int) :=
      parseIntJS_natDecimal (Tp + 1)
    have hvt : validateToken (trimL (natDecimal (Tp + 1))) Tp =
        .error ⟨.pageOutOfBounds, natDecimal (Tp + 1)⟩ := by
      rw [htr]
      unfold validateToken
      rw [if_neg hnd]
      simp only [hpi]
      rw [if_neg (by omega), if_pos (by omega), intDecimal_natCast]
    have hne3 : trimL (natDecimal (Tp + 1)) ≠ [] := by
      rw [htr]
      exact hne2
    unfold parseRanges
    rw [string_mk_data, if_neg hne3, splitOnC_of_not_mem hnc]
    unfold parseTokens
    simp only [hvt]

theorem parse_boundary_amended_witness :
    parseRanges (String.mk ('1' :: '-' :: natDecimal 3)) 3 =
      .ok [(1, ((3 : Nat) : Int))] ∧
    parseRanges (String.mk (natDecimal 4)) 3 =
      .error ⟨.pageOutOfBounds, natDecimal 4⟩ :=
  parse_boundary_amended 3 3 (by decide)

/-- C9 counterexample: the token `"0x"` has the decimal integer prefix `"0"`
followed by the non-numeric character `'x'`, yet `parseRanges "0x" 5` reports
`MalformedToken`, because `parseInt` treats a leading `0x` as a hexadecimal
prefix and finds no hex digits after it — refuting the claim for all such
tokens. -/
theorem digit_prefix_counterexample :
    parseRanges "0x" 5 = .error ⟨.malformedToken, "0x".data⟩ := by decide

/-- C9 amended: a dash-free, comma-free token whose trimmed text is a nonempty
run of decimal digits followed by a non-digit character is not reported as
`MalformedToken` — `parseInt` takes the longest numeric prefix, whose value `n`
is accepted, and the single-page interval `(n, n)` is emitted when
`1 ≤ n ≤ totalPages` — provided the digit run plus trailing character is not a
`0x`/`0X` hexadecimal prefix (for which `parseInt` switches to base 16). -/
theorem digit_prefix_token_accepted (t : String) (T : Nat) (ds : List Char)
    (c : Char) (rs : List Char) (n : Nat)
    (hnc : ',' ∉ t.data) (hnd : '-' ∉ t.data)
    (htr : trimL t.data = ds ++ c :: rs)
    (hds : ds ≠ []) (hdig : ∀ x ∈ ds, (decVal x).isSome = true)
    (hc : decVal c = none)
    (h0x : ¬(ds = ['0'] ∧ (c = 'x' ∨ c = 'X')))
    (hn : parseDigits decVal 10 ds = some n) :
    (∀ e, parseRanges t T = .error e → e.kind ≠ .malformedToken) ∧
    (1 ≤ n → n ≤ T →
      parseRanges t T = .ok [(((n : Nat) : Int), ((n : Nat) : Int))]) := by
  have hpi : parseIntJS (trimL t.data) = some ((n : Nat) : Int) := by
    rw [htr, parseIntJS_digits_append hds hdig (Or.inr ⟨c, rs, rfl, hc, h0x⟩), hn]
    rfl
  have hne : trimL t.data ≠ [] := by
    rw [htr]
    simp
  have hsp : splitOnC ',' t.data = [t.data] := splitOnC_of_not_mem hnc
  have hnd2 : '-' ∉ trimL t.data := fun hm => hnd (mem_of_mem_trimL hm)
  have hvt : validateToken (trimL t.data) T =
      if ((n : Nat) : Int) < 1 then .error ⟨.nonPositivePage, trimL t.data⟩
      else if ((n : Nat) : Int) > (T : Int) then
        .error ⟨.pageOutOfBounds, intDecimal ((n : Nat) : Int)⟩
      else .ok (((n : Nat) : Int), ((n : Nat) : Int)) := by
    unfold validateToken
    rw [if_neg hnd2]
    simp only [hpi]
  have hpr : parseRanges t T =
      match validateToken (trimL t.data) T with
      | .error e => .error e
      | .ok iv => .ok [iv] := by
    unfold parseRanges
    rw [if_neg hne, hsp]
    unfold parseTokens
    rcases validateToken (trimL t.data) T with e | iv
    · rfl
    · rfl
  by_cases c1 : ((n : Nat) : Int) < 1
  · have hv : validateToken (trimL t.data) T =
        .error ⟨.nonPositivePage, trimL t.data⟩ := by
      rw [hvt, if_pos c1]
    constructor
    · intro e he
      rw [hpr, hv] at he
      simp only [] at he
      rw [Except.error.injEq] at he
      subst he
      simp
    · intro h1 _
      exact absurd c1 (by omega)
  · by_cases c2 : ((n : Nat) : Int) > (T : Int)
    · have hv : validateToken (trimL t.data) T =
          .error ⟨.pageOutOfBounds, intDecimal ((n : Nat) : Int)⟩ := by
        rw [hvt, if_neg c1, if_pos c2]
      constructor
      · intro e he
        rw [hpr, hv] at he
        simp only [] at he
        rw [Except.error.injEq] at he
        subst he
        simp
      · intro _ h2
        exact absurd c2 (by omega)
    · have hv : validateToken (trimL t.data) T =
          .ok (((n : Nat) : Int), ((n : Nat) : Int)) := by
        rw [hvt, if_neg c1, if_neg c2]
      constructor
      · intro e he
        rw [hpr, hv] at he
        simp at he
      · intro _ _
        rw [hpr, hv]

theorem digit_prefix_token_accepted_witness :
    parseRanges "2a" 5 = .ok [(((2 : Nat) : Int), ((2 : Nat) : Int))] :=
  (digit_prefix_token_accepted "2a" 5 ['2'] 'a' [] 2 (by decide) (by decide)
    (by decide) (by decide) (by decide) (by decide) (by decide) (by decide)).2
    (by decide) (by decide)

/-- C10: a token containing two or more `-` separators whose first two parts
parse as integers `A`, `B` with `1 ≤ A ≤ B ≤ totalPages` is not reported as
`MalformedToken`; the interval `(A, B)` is emitted and every part after the
second `-` is silently ignored (the destructuring reads only the first two
parts of the split). -/
theorem multi_dash_token_first_two_parts (t : String) (T : Nat)
    (p1 p2 p3 : List Char) (ps : List (List Char)) (a b : Int)
    (hnc : ',' ∉ t.data)
    (hsp : splitOnC '-' (trimL t.data) = p1 :: p2 :: p3 :: ps)
    (ha : parseIntJS (trimL p1) = some a) (hb : parseIntJS (trimL p2) = some b)
    (h1 : 1 ≤ a) (hab : a ≤ b) (hbT : b ≤ (T : Int)) :
    parseRanges t T = .ok [(a, b)] := by
  have hdm : '-' ∈ trimL t.data := sep_mem_of_splitOnC hsp
  have hne : trimL t.data ≠ [] := by
    intro h0
    rw [h0] at hdm
    simp at hdm
  have hspc : splitOnC ',' t.data = [t.data] := splitOnC_of_not_mem hnc
  have hvt : validateToken (trimL t.data) T = .ok (a, b) := by
    unfold validateToken
    rw [if_pos hdm, hsp]
    simp only [ha, hb]
    rw [if_neg (by omega), if_neg (by omega), if_neg (by omega)]
  unfold parseRanges
  rw [if_neg hne, hspc]
  unfold parseTokens
  simp only [hvt]
  rfl

theorem multi_dash_token_first_two_parts_witness :
    parseRanges "1-2-3" 2 = .ok [((1 : Int), (2 : Int))] :=
  multi_dash_token_first_two_parts "1-2-3" 2 ['1'] ['2'] ['3'] [] 1 2 (by decide)
    (by decide) (by decide) (by decide) (by decide) (by decide) (by decide)

end PdfSplit
